import Mathlib

set_option linter.unusedSectionVars false

/-!
Verification of the sewage-grid simplification algorithm
(`identify_necessary_manholes` and the pipe filtering in `main`,
file `projects/Sewage grid automation/main.py`).

The embedding mirrors the source:
* `buildGraphG` models `nx.from_pandas_edgelist` / `Graph.add_edge`:
  an undirected simple graph kept as an insertion-ordered adjacency
  association list (duplicate edges collapse, both directions stored,
  a self-loop stores the node once in its own neighbor list).
* `degree` models `G.degree` (a self-loop counts twice).
* `chainWalk` models the inner `while G.degree(curr) == 2` loop,
  returning the chain interior and the list of consumed edges
  (`tuple(sorted((prev, curr)))` is `sortPair`); it is fuel-indexed and
  returns `none` on fuel exhaustion, which is later proved impossible
  for the fuel the driver supplies.
* `walkRecords` models the outer double loop over critical nodes and
  their neighbors, threading the `visited_chains` set and recording,
  for each started chain, its origin, first neighbor, interior and
  consumed edges.
* `sampleChain` models `for i, chain_node in enumerate(chain): if i % 4 == 0`.
* `identifyG` / `identify_necessary_manholes` assemble the final set,
  and `filteredEdges` models the `simplified_pipes_df` filter in `main`.
-/

namespace Sewage

abbrev Node := Nat

abbrev Adj := List (Node × List Node)

/-- Insert `v` at the end of `l` unless already present (dict-like update). -/
def insBack {α : Type} [DecidableEq α] (l : List α) (v : α) : List α :=
  if v ∈ l then l else l ++ [v]

/-- Add a node with an empty neighbor list if absent (nx `add_node`). -/
def addNode {α : Type} [DecidableEq α] (g : List (α × List α)) (u : α) :
    List (α × List α) :=
  if g.any (fun p => p.1 = u) then g else g ++ [(u, [])]

/-- Append `v` to `u`'s neighbor list if absent (one direction of nx `add_edge`). -/
def addNbr {α : Type} [DecidableEq α] (g : List (α × List α)) (u v : α) :
    List (α × List α) :=
  g.map (fun p => if p.1 = u then (p.1, insBack p.2 v) else p)

/-- nx `Graph.add_edge u v`: ensure both nodes exist, then record both directions. -/
def addEdge {α : Type} [DecidableEq α] (g : List (α × List α)) (u v : α) :
    List (α × List α) :=
  addNbr (addNbr (addNode (addNode g u) v) u v) v u

/-- nx `from_pandas_edgelist`: fold the edge rows into the adjacency structure. -/
def buildGraphG {α : Type} [DecidableEq α] (edges : List (α × α)) :
    List (α × List α) :=
  edges.foldl (fun g e => addEdge g e.1 e.2) []

def buildGraph (edges : List (Node × Node)) : Adj := buildGraphG edges

/-- The node set of the graph, in insertion order (nx `G.nodes`). -/
def keysOf {α : Type} (g : List (α × List α)) : List α := g.map Prod.fst

/-- Neighbor list of `u`, in insertion order (nx `G.neighbors`). -/
def nbrsOf {α : Type} [DecidableEq α] (g : List (α × List α)) (u : α) : List α :=
  match g.find? (fun p => p.1 = u) with
  | some p => p.2
  | none => []

/-- nx `G.degree u`: distinct neighbors, a self-loop counting twice. -/
def degree (g : Adj) (u : Node) : Nat :=
  (nbrsOf g u).length + (if u ∈ nbrsOf g u then 1 else 0)

/-- `tuple(sorted((a, b)))` on a pair of labels. -/
def sortPair (a b : Node) : Node × Node := (min a b, max a b)

/-- The inner `while G.degree(curr) == 2` loop of `identify_necessary_manholes`:
returns the chain interior (in discovery order, starting adjacent to the
originating critical node) and the list of edges added to `visited_chains`
during this walk.  Fuel-indexed; `none` only on fuel exhaustion. -/
def chainWalk (g : Adj) : Nat → Node → Node → Option (List Node × List (Node × Node))
  | 0, _, _ => none
  | fuel+1, prev, curr =>
    if degree g curr = 2 then
      match (nbrsOf g curr).filter (fun n => n ≠ prev) with
      | [] => some ([curr], [sortPair prev curr, sortPair prev curr])
      | next :: _ =>
        match chainWalk g fuel curr next with
        | none => none
        | some (ch, cons) => some (curr :: ch, sortPair prev curr :: cons)
    else
      some ([], [sortPair prev curr])

/-- `for i, chain_node in enumerate(chain): if i % 4 == 0: additional_mh.add(...)`. -/
def sampleChain (chain : List Node) : List Node :=
  (chain.enum.filter (fun p => p.1 % 4 = 0)).map Prod.snd

/-- One chain discovery record: originating critical node `j`, its degree-2
neighbor `n` that started the walk, the chain interior and the edges this
chain added to `visited_chains`. -/
structure WalkRec where
  j : Node
  n : Node
  chain : List Node
  consumed : List (Node × Node)
  deriving DecidableEq

/-- One iteration of the inner `for neighbor in G.neighbors(node)` loop:
start a walk iff the neighbor is a path node and the boundary edge is not
yet consumed. -/
def walkStep (g : Adj) (fuel : Nat) (st : Option (List (Node × Node) × List WalkRec))
    (j n : Node) : Option (List (Node × Node) × List WalkRec) :=
  match st with
  | none => none
  | some (visited, recs) =>
    if degree g n = 2 ∧ sortPair j n ∉ visited then
      match chainWalk g fuel j n with
      | none => none
      | some (ch, cons) => some (visited ++ cons, recs ++ [⟨j, n, ch, cons⟩])
    else
      some (visited, recs)

/-- Fuel supplied to every walk: strictly more than the number of distinct
walk states, so exhaustion is impossible (proved below). -/
def fuelOf (g : Adj) : Nat := (keysOf g).length * (keysOf g).length

/-- The outer `for node in necessary_mh: for neighbor in G.neighbors(node)`
double loop, threading `visited_chains` and collecting the chain records. -/
def walkRecords (g : Adj) (junctions : List Node) :
    Option (List (Node × Node) × List WalkRec) :=
  junctions.foldl
    (fun st j => (nbrsOf g j).foldl (fun st2 n => walkStep g (fuelOf g) st2 j n) st)
    (some ([], []))

/-- `{node for node, degree in G.degree() if degree != 2}` (insertion order). -/
def junctionsOf (g : Adj) : List Node :=
  (keysOf g).filter (fun u => degree g u ≠ 2)

/-- All chain records of the run. -/
def recordsOf (g : Adj) : List WalkRec :=
  match walkRecords g (junctionsOf g) with
  | some (_, recs) => recs
  | none => []

/-- `identify_necessary_manholes`, after the graph is built: critical nodes
plus the sampled chain interiors (`necessary_mh.update(additional_mh)`). -/
def identifyG (g : Adj) : List Node :=
  if keysOf g = [] then []
  else junctionsOf g ++ (recordsOf g).flatMap (fun r => sampleChain r.chain)

/-- `identify_necessary_manholes` on an edge list. -/
def identify_necessary_manholes (edges : List (Node × Node)) : List Node :=
  identifyG (buildGraph edges)

/-- `simplified_pipes_df` in `main`: the rows of the ORIGINAL pipe list whose
both endpoints are retained. -/
def filteredEdges (edges : List (Node × Node)) : List (Node × Node) :=
  edges.filter (fun e =>
    e.1 ∈ identify_necessary_manholes edges ∧ e.2 ∈ identify_necessary_manholes edges)

/-- One step of the walk viewed as a transition on `(prev, curr)` states:
defined iff the loop would run another iteration. -/
def stepState (g : Adj) (s : Node × Node) : Option (Node × Node) :=
  if degree g s.2 = 2 then
    match (nbrsOf g s.2).filter (fun n => n ≠ s.1) with
    | [] => none
    | n :: _ => some (s.2, n)
  else none

/-- The walk state after `i` iterations, when still running. -/
def stateAt (g : Adj) (s : Node × Node) : Nat → Option (Node × Node)
  | 0 => some s
  | i+1 => (stateAt g s i).bind (stepState g)

/-- A walk state is valid when its two components are adjacent. -/
def ValidS (g : Adj) (s : Node × Node) : Prop :=
  s.2 ∈ nbrsOf g s.1 ∧ s.1 ∈ nbrsOf g s.2

/-- Graph reachability along neighbor links. -/
inductive Reachable (g : Adj) : Node → Node → Prop
  | refl (u : Node) : Reachable g u u
  | tail {u v w : Node} : Reachable g u v → w ∈ nbrsOf g v → Reachable g u w

/-- Spec-side restatement of the sampling rule, tracking the running index:
keep exactly the entries whose index is divisible by four. -/
def sampleAux : Nat → List Node → List Node
  | _, [] => []
  | k, a :: t => (if k % 4 = 0 then [a] else []) ++ sampleAux (k+1) t

/-- Invariant threaded through the outer double loop: the `visited_chains`
set is exactly the union of the recorded chains' consumed edges, the
records consume pairwise disjoint edge sets, and every record came from a
successful walk out of a critical node. -/
structure RunInv (g : Adj) (visited : List (Node × Node))
    (recs : List WalkRec) : Prop where
  visIff : ∀ e, e ∈ visited ↔ ∃ r ∈ recs, e ∈ r.consumed
  disj : recs.Pairwise (fun r1 r2 => ∀ e, e ∈ r1.consumed → e ∉ r2.consumed)
  recsOk : ∀ r ∈ recs, sortPair r.j r.n ∈ r.consumed ∧ degree g r.j ≠ 2 ∧
    r.n ∈ nbrsOf g r.j ∧
    chainWalk g (fuelOf g) r.j r.n = some (r.chain, r.consumed)

/-- An edge row of the pipe table with possibly missing endpoints
(`None`/`NaN` cells), as `nx.from_pandas_edgelist` receives it: the
builder consumes the row as-is, a missing endpoint simply becoming the
node `none`. -/
def fromPandasRows (rows : List (Option Nat × Option Nat)) :
    List (Option Nat × List (Option Nat)) :=
  buildGraphG rows

/-- The well-formed rows: both endpoints present. -/
def wellFormedRows (rows : List (Option Nat × Option Nat)) :
    List (Option Nat × Option Nat) :=
  rows.filter (fun r => r.1.isSome ∧ r.2.isSome)

/-! ### Basic lemmas about the adjacency construction -/

section BuildLemmas

variable {α : Type} [DecidableEq α]

lemma mem_keysOf {g : List (α × List α)} {u : α} :
    u ∈ keysOf g ↔ ∃ p ∈ g, p.1 = u := by
  simp [keysOf, List.mem_map]

lemma any_fst_iff {g : List (α × List α)} {u : α} :
    (g.any (fun p => p.1 = u) = true) ↔ u ∈ keysOf g := by
  simp [List.any_eq_true, mem_keysOf]

lemma nbrsOf_eq_nil_of_not_mem {g : List (α × List α)} {u : α}
    (h : u ∉ keysOf g) : nbrsOf g u = [] := by
  have hf : g.find? (fun p => p.1 = u) = none := by
    rw [List.find?_eq_none]
    intro p hp
    simp only [decide_eq_true_eq]
    intro he
    exact h (mem_keysOf.mpr ⟨p, hp, he⟩)
  simp [nbrsOf, hf]

lemma mem_keysOf_of_nbrs_ne_nil {g : List (α × List α)} {u : α}
    (h : nbrsOf g u ≠ []) : u ∈ keysOf g := by
  by_contra hu
  exact h (nbrsOf_eq_nil_of_not_mem hu)

@[simp] lemma keysOf_addNbr (g : List (α × List α)) (u v : α) :
    keysOf (addNbr g u v) = keysOf g := by
  simp only [keysOf, addNbr, List.map_map]
  apply List.map_congr_left
  intro p _
  by_cases h : p.1 = u <;> simp [h]

lemma keysOf_addNode (g : List (α × List α)) (u : α) :
    keysOf (addNode g u) = if u ∈ keysOf g then keysOf g else keysOf g ++ [u] := by
  by_cases h : u ∈ keysOf g
  · simp [addNode, any_fst_iff.mpr h, h]
  · have hany : ¬ (g.any (fun p => p.1 = u) = true) := fun hc => h (any_fst_iff.mp hc)
    have h2 : u ∉ List.map Prod.fst g := h
    simp [addNode, hany, h2, keysOf]

lemma mem_keysOf_addNode (g : List (α × List α)) (u : α) :
    u ∈ keysOf (addNode g u) := by
  rw [keysOf_addNode]
  by_cases h : u ∈ keysOf g <;> simp [h]

lemma keysOf_addNode_supset {g : List (α × List α)} {u w : α}
    (h : w ∈ keysOf g) : w ∈ keysOf (addNode g u) := by
  rw [keysOf_addNode]
  by_cases hu : u ∈ keysOf g <;> simp [hu, h]

lemma nbrsOf_addNode (g : List (α × List α)) (u w : α) :
    nbrsOf (addNode g u) w = nbrsOf g w := by
  by_cases h : u ∈ keysOf g
  · simp [addNode, any_fst_iff.mpr h]
  · have hany : ¬ (g.any (fun p => p.1 = u) = true) := fun hc => h (any_fst_iff.mp hc)
    simp only [addNode, hany, if_false]
    by_cases hw : w ∈ keysOf g
    · obtain ⟨p, hp, he⟩ := mem_keysOf.mp hw
      have hfind : ∃ q, g.find? (fun p => p.1 = w) = some q := by
        have : (g.find? (fun p => p.1 = w)).isSome = true := by
          rw [List.find?_isSome]
          exact ⟨p, hp, by simp [he]⟩
        exact Option.isSome_iff_exists.mp this
      obtain ⟨q, hq⟩ := hfind
      simp [nbrsOf, List.find?_append, hq]
    · have hfw : g.find? (fun p => p.1 = w) = none := by
        rw [List.find?_eq_none]
        intro p hp
        simp only [decide_eq_true_eq]
        intro he
        exact hw (mem_keysOf.mpr ⟨p, hp, he⟩)
      by_cases huw : u = w <;> simp [nbrsOf, List.find?_append, hfw, huw]

lemma mem_insBack {l : List α} {v w : α} :
    w ∈ insBack l v ↔ w ∈ l ∨ w = v := by
  by_cases h : v ∈ l
  · constructor
    · intro hw
      simp only [insBack, if_pos h] at hw
      exact Or.inl hw
    · intro hw
      simp only [insBack, if_pos h]
      rcases hw with hw | hw
      · exact hw
      · exact hw ▸ h
  · simp [insBack, h]

lemma nodup_insBack {l : List α} {v : α} (h : l.Nodup) :
    (insBack l v).Nodup := by
  by_cases hv : v ∈ l
  · simpa [insBack, hv] using h
  · simp [insBack, hv, List.nodup_append, h]

lemma find?_addNbr (g : List (α × List α)) (u v w : α) :
    (addNbr g u v).find? (fun p => p.1 = w) =
      ((g.find? (fun p => p.1 = w)).map
        (fun p => if p.1 = u then (p.1, insBack p.2 v) else p)) := by
  have he : ((fun (p : α × List α) => decide (p.1 = w)) ∘
      fun p => if p.1 = u then (p.1, insBack p.2 v) else p) =
      (fun (p : α × List α) => decide (p.1 = w)) := by
    funext p
    by_cases h : p.1 = u <;> simp [h]
  rw [addNbr, List.find?_map, he]

lemma nbrsOf_addNbr_self {g : List (α × List α)} {u : α} (v : α)
    (h : u ∈ keysOf g) :
    nbrsOf (addNbr g u v) u = insBack (nbrsOf g u) v := by
  obtain ⟨p, hp, he⟩ := mem_keysOf.mp h
  have hfind : (g.find? (fun q => q.1 = u)).isSome = true := by
    rw [List.find?_isSome]
    exact ⟨p, hp, by simp [he]⟩
  obtain ⟨q, hq⟩ := Option.isSome_iff_exists.mp hfind
  have hq1 : q.1 = u := by
    have := List.find?_some hq
    simpa using this
  simp [nbrsOf, find?_addNbr, hq, hq1]

lemma nbrsOf_addNbr_ne {g : List (α × List α)} {u w : α} (v : α)
    (h : w ≠ u) :
    nbrsOf (addNbr g u v) w = nbrsOf g w := by
  rcases hq : g.find? (fun q => q.1 = w) with _ | q
  · simp [nbrsOf, find?_addNbr, hq]
  · have hq1 : q.1 = w := by
      have := List.find?_some hq
      simpa using this
    have hne : ¬ q.1 = u := by
      rw [hq1]
      exact h
    simp [nbrsOf, find?_addNbr, hq, hne]

lemma keysOf_addEdge_subset {g : List (α × List α)} {u v w : α}
    (h : w ∈ keysOf g) : w ∈ keysOf (addEdge g u v) := by
  simp only [addEdge, keysOf_addNbr]
  exact keysOf_addNode_supset (keysOf_addNode_supset h)

lemma fst_mem_keysOf_addEdge (g : List (α × List α)) (u v : α) :
    u ∈ keysOf (addEdge g u v) := by
  simp only [addEdge, keysOf_addNbr]
  exact keysOf_addNode_supset (mem_keysOf_addNode g u)

lemma snd_mem_keysOf_addEdge (g : List (α × List α)) (u v : α) :
    v ∈ keysOf (addEdge g u v) := by
  simp only [addEdge, keysOf_addNbr]
  exact mem_keysOf_addNode (addNode g u) v

lemma nbrsOf_addEdge_other {g : List (α × List α)} {u v w : α}
    (hu : w ≠ u) (hv : w ≠ v) :
    nbrsOf (addEdge g u v) w = nbrsOf g w := by
  rw [addEdge, nbrsOf_addNbr_ne _ hv, nbrsOf_addNbr_ne _ hu,
    nbrsOf_addNode, nbrsOf_addNode]

lemma nbrsOf_addEdge_fst {g : List (α × List α)} {u v : α} (hne : u ≠ v) :
    nbrsOf (addEdge g u v) u = insBack (nbrsOf g u) v := by
  have hu : u ∈ keysOf (addNode (addNode g u) v) :=
    keysOf_addNode_supset (mem_keysOf_addNode g u)
  rw [addEdge, nbrsOf_addNbr_ne _ hne, nbrsOf_addNbr_self _ hu,
    nbrsOf_addNode, nbrsOf_addNode]

lemma nbrsOf_addEdge_snd {g : List (α × List α)} {u v : α} (hne : u ≠ v) :
    nbrsOf (addEdge g u v) v = insBack (nbrsOf g v) u := by
  have hv : v ∈ keysOf (addNbr (addNode (addNode g u) v) u v) := by
    rw [keysOf_addNbr]
    exact mem_keysOf_addNode (addNode g u) v
  rw [addEdge, nbrsOf_addNbr_self _ hv, nbrsOf_addNbr_ne _ (Ne.symm hne),
    nbrsOf_addNode, nbrsOf_addNode]

lemma nbrsOf_addEdge_self (g : List (α × List α)) (u : α) :
    nbrsOf (addEdge g u u) u = insBack (nbrsOf g u) u := by
  have hu : u ∈ keysOf (addNode (addNode g u) u) :=
    keysOf_addNode_supset (mem_keysOf_addNode g u)
  have hu2 : u ∈ keysOf (addNbr (addNode (addNode g u) u) u u) := by
    rw [keysOf_addNbr]
    exact hu
  rw [addEdge, nbrsOf_addNbr_self _ hu2, nbrsOf_addNbr_self _ hu,
    nbrsOf_addNode, nbrsOf_addNode]
  by_cases h : u ∈ nbrsOf g u <;> simp [insBack, h, mem_insBack]

lemma mem_nbrsOf_addEdge {g : List (α × List α)} {u v x y : α} :
    x ∈ nbrsOf (addEdge g u v) y ↔
      x ∈ nbrsOf g y ∨ (y = u ∧ x = v) ∨ (y = v ∧ x = u) := by
  by_cases hyu : y = u
  · by_cases hyv : y = v
    · have huv : u = v := hyu ▸ hyv
      rw [hyu, ← huv, nbrsOf_addEdge_self, mem_insBack]
      constructor
      · rintro (h | h)
        · exact Or.inl h
        · exact Or.inr (Or.inl ⟨rfl, huv ▸ h⟩)
      · rintro (h | ⟨_, h⟩ | ⟨_, h⟩)
        · exact Or.inl h
        · exact Or.inr h
        · exact Or.inr h
    · have huv : u ≠ v := fun he => hyv (hyu.trans he)
      rw [hyu, nbrsOf_addEdge_fst huv, mem_insBack]
      constructor
      · rintro (h | h)
        · exact Or.inl h
        · exact Or.inr (Or.inl ⟨rfl, h⟩)
      · rintro (h | ⟨_, h⟩ | ⟨he, _⟩)
        · exact Or.inl h
        · exact Or.inr h
        · exact absurd he huv
  · by_cases hyv : y = v
    · by_cases huv : u = v
      · exact absurd (hyv.trans huv.symm) hyu
      · rw [hyv, nbrsOf_addEdge_snd huv, mem_insBack]
        constructor
        · rintro (h | h)
          · exact Or.inl h
          · exact Or.inr (Or.inr ⟨rfl, h⟩)
        · rintro (h | ⟨he, _⟩ | ⟨_, h⟩)
          · exact Or.inl h
          · exact absurd he.symm huv
          · exact Or.inr h
    · rw [nbrsOf_addEdge_other hyu hyv]
      simp [hyu, hyv]

/-- Well-formedness of the adjacency structure as `networkx` maintains it:
no duplicate node entries, no duplicate neighbors, symmetric adjacency. -/
structure GWF (g : List (α × List α)) : Prop where
  nodupKeys : (keysOf g).Nodup
  nodupNbrs : ∀ u, (nbrsOf g u).Nodup
  symm : ∀ u v, u ∈ nbrsOf g v → v ∈ nbrsOf g u

lemma GWF.emptyWF : GWF ([] : List (α × List α)) where
  nodupKeys := List.nodup_nil
  nodupNbrs := fun u => by simp [nbrsOf]
  symm := fun u v h => by simp [nbrsOf] at h

lemma keysOf_addNode_nodup {g : List (α × List α)} {u : α}
    (h : (keysOf g).Nodup) : (keysOf (addNode g u)).Nodup := by
  rw [keysOf_addNode]
  by_cases hu : u ∈ keysOf g
  · simpa [hu] using h
  · simp [hu, List.nodup_append, h]

lemma GWF.addEdgePres {g : List (α × List α)} (hg : GWF g) (u v : α) :
    GWF (addEdge g u v) := by
  refine ⟨?_, ?_, ?_⟩
  · simp only [Sewage.addEdge, keysOf_addNbr]
    exact keysOf_addNode_nodup (keysOf_addNode_nodup hg.nodupKeys)
  · intro w
    by_cases huv : u = v
    · subst huv
      by_cases hw : w = u
      · subst hw
        rw [nbrsOf_addEdge_self]
        exact nodup_insBack (hg.nodupNbrs w)
      · rw [nbrsOf_addEdge_other hw hw]
        exact hg.nodupNbrs w
    · by_cases hw1 : w = u
      · subst hw1
        rw [nbrsOf_addEdge_fst huv]
        exact nodup_insBack (hg.nodupNbrs w)
      · by_cases hw2 : w = v
        · subst hw2
          rw [nbrsOf_addEdge_snd huv]
          exact nodup_insBack (hg.nodupNbrs w)
        · rw [nbrsOf_addEdge_other hw1 hw2]
          exact hg.nodupNbrs w
  · intro x y hxy
    rw [mem_nbrsOf_addEdge] at hxy ⊢
    rcases hxy with h | ⟨h1, h2⟩ | ⟨h1, h2⟩
    · exact Or.inl (hg.symm x y h)
    · exact Or.inr (Or.inr ⟨h2, h1⟩)
    · exact Or.inr (Or.inl ⟨h2, h1⟩)

lemma GWF.buildAux (edges : List (α × α)) :
    ∀ {g : List (α × List α)}, GWF g →
      GWF (edges.foldl (fun a e => addEdge a e.1 e.2) g) := by
  induction edges with
  | nil => exact fun hg => hg
  | cons e rest ih =>
    intro g hg
    exact ih (hg.addEdgePres e.1 e.2)

lemma GWF.build (edges : List (α × α)) : GWF (buildGraphG edges) :=
  GWF.buildAux edges GWF.emptyWF

lemma mem_keysOf_foldl_of_mem {w : α} (edges : List (α × α)) :
    ∀ {g : List (α × List α)}, w ∈ keysOf g →
      w ∈ keysOf (edges.foldl (fun a e => addEdge a e.1 e.2) g) := by
  induction edges with
  | nil => exact fun h => h
  | cons e rest ih =>
    intro g h
    exact ih (keysOf_addEdge_subset h)

lemma mem_keysOf_foldl_edges {e : α × α} (edges : List (α × α)) (h : e ∈ edges) :
    ∀ g : List (α × List α),
      e.1 ∈ keysOf (edges.foldl (fun a x => addEdge a x.1 x.2) g) ∧
      e.2 ∈ keysOf (edges.foldl (fun a x => addEdge a x.1 x.2) g) := by
  induction edges with
  | nil => cases h
  | cons e0 rest ih =>
    intro g
    rcases List.mem_cons.mp h with h | h
    · subst h
      simp only [List.foldl_cons]
      exact ⟨mem_keysOf_foldl_of_mem rest (fst_mem_keysOf_addEdge g e.1 e.2),
        mem_keysOf_foldl_of_mem rest (snd_mem_keysOf_addEdge g e.1 e.2)⟩
    · simp only [List.foldl_cons]
      exact ih h _

lemma mem_keysOf_buildGraphG {edges : List (α × α)} {e : α × α}
    (h : e ∈ edges) :
    e.1 ∈ keysOf (buildGraphG edges) ∧ e.2 ∈ keysOf (buildGraphG edges) :=
  mem_keysOf_foldl_edges edges h []

end BuildLemmas

/-! ### Degree structure and sorted-pair lemmas -/

lemma sortPair_comm (a b : Node) : sortPair a b = sortPair b a := by
  simp [sortPair, Nat.min_comm, Nat.max_comm]

lemma endpoint_cases {a b x : Node}
    (h : x = (sortPair a b).1 ∨ x = (sortPair a b).2) : x = a ∨ x = b := by
  simp only [sortPair] at h
  rcases Nat.le_total a b with hle | hle
  · rw [Nat.min_eq_left hle, Nat.max_eq_right hle] at h
    exact h
  · rw [Nat.min_eq_right hle, Nat.max_eq_left hle] at h
    exact h.symm

lemma fst_endpoint (a b : Node) :
    a = (sortPair a b).1 ∨ a = (sortPair a b).2 := by
  simp only [sortPair]
  rcases Nat.le_total a b with hle | hle
  · exact Or.inl (Nat.min_eq_left hle).symm
  · exact Or.inr (Nat.max_eq_left hle).symm

lemma degree_eq_zero_of_not_mem {g : Adj} {u : Node}
    (h : u ∉ keysOf g) : degree g u = 0 := by
  simp [degree, nbrsOf_eq_nil_of_not_mem h]

lemma mem_keysOf_of_degree_eq_two {g : Adj} {u : Node}
    (h : degree g u = 2) : u ∈ keysOf g := by
  by_contra hu
  rw [degree_eq_zero_of_not_mem hu] at h
  cases h

lemma nbrs_of_degree_two {g : Adj} {c : Node} (hg : GWF g)
    (h : degree g c = 2) :
    (∃ a b, nbrsOf g c = [a, b] ∧ a ≠ b ∧ c ≠ a ∧ c ≠ b) ∨ nbrsOf g c = [c] := by
  by_cases hc : c ∈ nbrsOf g c
  · right
    have hlen : (nbrsOf g c).length = 1 := by
      simp [degree, hc] at h
      omega
    obtain ⟨x, hx⟩ := List.length_eq_one.mp hlen
    rw [hx] at hc
    simp at hc
    rw [hx, hc]
  · left
    have hlen : (nbrsOf g c).length = 2 := by
      simp [degree, hc] at h
      exact h
    obtain ⟨a, b, hab⟩ := List.length_eq_two.mp hlen
    have hnd := hg.nodupNbrs c
    rw [hab] at hnd hc
    simp [List.nodup_cons] at hnd
    simp at hc
    exact ⟨a, b, hab, hnd, hc.1, hc.2⟩

/-- The `next_node_options` computation: for a degree-2 node `c` entered
from a neighbor `p`, the candidate list is either empty (forcing the
`break`, only in the pure-self-loop corner) or a single node. -/
lemma filter_ne_eq {g : Adj} {c p : Node} (hg : GWF g)
    (hd : degree g c = 2) (hp : p ∈ nbrsOf g c) :
    ((nbrsOf g c).filter (fun n => n ≠ p) = [] ∧ p = c ∧ nbrsOf g c = [c]) ∨
    (∃ n, (nbrsOf g c).filter (fun n => n ≠ p) = [n] ∧
      n ∈ nbrsOf g c ∧ n ≠ p ∧ n ≠ c) := by
  rcases nbrs_of_degree_two hg hd with ⟨a, b, hab, hne, hca, hcb⟩ | hself
  · right
    rw [hab] at hp
    have hba : b ≠ a := fun he => hne he.symm
    rcases List.mem_cons.mp hp with hpa | hpb
    · refine ⟨b, ?_, ?_, ?_, ?_⟩
      · rw [hab, hpa]
        simp [List.filter_cons, hba]
      · rw [hab]
        simp
      · rw [hpa]
        exact hba
      · exact fun he => hcb he.symm
    · simp at hpb
      refine ⟨a, ?_, ?_, ?_, ?_⟩
      · rw [hab, hpb]
        simp [List.filter_cons, hne]
      · rw [hab]
        simp
      · rw [hpb]
        exact hne
      · exact fun he => hca he.symm
  · left
    rw [hself] at hp
    simp at hp
    rw [hself, hp]
    simp

/-! ### Lemmas about a single chain walk -/

lemma chainWalk_first_mem {g : Adj} {p c : Node} {f : Nat}
    {ch : List Node} {cons : List (Node × Node)}
    (h : chainWalk g f p c = some (ch, cons)) : sortPair p c ∈ cons := by
  cases f with
  | zero => cases h
  | succ f =>
    rw [chainWalk] at h
    split at h
    · split at h
      · simp only [Option.some.injEq, Prod.mk.injEq] at h
        rw [← h.2]
        simp
      · split at h
        · cases h
        · simp only [Option.some.injEq, Prod.mk.injEq] at h
          rw [← h.2]
          simp
    · simp only [Option.some.injEq, Prod.mk.injEq] at h
      rw [← h.2]
      simp

lemma chainWalk_chain_degree {g : Adj} {f : Nat} :
    ∀ {p c : Node} {ch : List Node} {cons : List (Node × Node)},
      chainWalk g f p c = some (ch, cons) → ∀ x ∈ ch, degree g x = 2 := by
  induction f with
  | zero => intro p c ch cons h; cases h
  | succ f ih =>
    intro p c ch cons h x hx
    rw [chainWalk] at h
    split at h
    · rename_i hd
      split at h
      · simp only [Option.some.injEq, Prod.mk.injEq] at h
        rw [← h.1] at hx
        simp at hx
        rw [hx]
        exact hd
      · split at h
        · cases h
        · rename_i ch2 cons2 hrec
          simp only [Option.some.injEq, Prod.mk.injEq] at h
          rw [← h.1] at hx
          rcases List.mem_cons.mp hx with hx | hx
          · rw [hx]
            exact hd
          · exact ih hrec x hx
    · simp only [Option.some.injEq, Prod.mk.injEq] at h
      rw [← h.1] at hx
      cases hx

/-- Every neighbor of a degree-2 interior node is either the walk's
entry node or the single forward candidate. -/
lemma nbrs_cases_of_filter {g : Adj} {c p next : Node} {tail : List Node}
    (heq : (nbrsOf g c).filter (fun n => n ≠ p) = next :: tail) :
    ∀ y ∈ nbrsOf g c, y = p ∨ (y ∈ next :: tail) := by
  intro y hy
  by_cases hyp : y = p
  · exact Or.inl hyp
  · right
    rw [← heq]
    exact List.mem_filter.mpr ⟨hy, by simpa using hyp⟩

lemma next_mem_nbrs {g : Adj} {c p next : Node} {tail : List Node}
    (heq : (nbrsOf g c).filter (fun n => n ≠ p) = next :: tail) :
    next ∈ nbrsOf g c ∧ next ≠ p := by
  have : next ∈ (nbrsOf g c).filter (fun n => n ≠ p) := by
    rw [heq]
    simp
  have h2 := List.mem_filter.mp this
  exact ⟨h2.1, by simpa using h2.2⟩

/-- Closure lemma: within one walk, whenever a consumed edge touches a
degree-2 node, both of that node's incident edges are consumed by the same
walk (only exempting the entry node `p` itself). -/
lemma chainWalk_closure {g : Adj} (hg : GWF g) {f : Nat} :
    ∀ {p c : Node} {ch : List Node} {cons : List (Node × Node)},
      c ∈ nbrsOf g p →
      chainWalk g f p c = some (ch, cons) →
      ∀ e ∈ cons, ∀ x, (x = e.1 ∨ x = e.2) → degree g x = 2 →
        ∀ y ∈ nbrsOf g x, sortPair x y ∈ cons ∨ x = p := by
  induction f with
  | zero => intro p c ch cons _ h; cases h
  | succ f ih =>
    intro p c ch cons hc h e he x hx hdx y hy
    have hpc : p ∈ nbrsOf g c := hg.symm c p hc
    rw [chainWalk] at h
    split at h
    · rename_i hd
      split at h
      · rename_i heq
        rcases filter_ne_eq hg hd hpc with ⟨_, hpceq, hnbr⟩ | ⟨n, hfil, _, _, _⟩
        · simp only [Option.some.injEq, Prod.mk.injEq] at h
          rw [← h.2] at he
          simp at he
          rw [he] at hx
          have hxpc := endpoint_cases hx
          have hxc : x = c := by
            rcases hxpc with hh | hh
            · exact hh.trans hpceq
            · exact hh
          rw [hxc, hnbr] at hy
          simp at hy
          left
          rw [← h.2, hxc, hy, hpceq]
          simp
        · rw [heq] at hfil
          cases hfil
      · rename_i next tail heq
        split at h
        · cases h
        · rename_i ch2 cons2 hrec
          simp only [Option.some.injEq, Prod.mk.injEq] at h
          have hnext := next_mem_nbrs heq
          have hfirst2 : sortPair c next ∈ cons2 := chainWalk_first_mem hrec
          have hcnbr : ∀ z ∈ nbrsOf g c, z = p ∨ z = next := by
            intro z hz
            rcases nbrs_cases_of_filter heq z hz with hzp | hzm
            · exact Or.inl hzp
            · right
              rcases filter_ne_eq hg hd hpc with ⟨hnil, _, _⟩ | ⟨n, hfil, _, _, _⟩
              · rw [heq] at hnil
                cases hnil
              · rw [heq] at hfil
                injection hfil with h1 h2
                rw [h2] at hzm
                simp at hzm
                rw [hzm, h1]
          rw [← h.2] at he
          rcases List.mem_cons.mp he with he | he
          · rw [he] at hx
            rcases endpoint_cases hx with hxp | hxc
            · exact Or.inr hxp
            · rw [hxc] at hy ⊢
              rcases hcnbr y hy with hyp | hyn
              · left
                rw [← h.2, hyp, sortPair_comm]
                simp
              · left
                rw [← h.2, hyn]
                exact List.mem_cons_of_mem _ hfirst2
          · rcases ih hnext.1 hrec e he x hx hdx y hy with hin | hxc
            · left
              rw [← h.2]
              exact List.mem_cons_of_mem _ hin
            · rw [hxc] at hy ⊢
              rcases hcnbr y hy with hyp | hyn
              · left
                rw [← h.2, hyp, sortPair_comm]
                simp
              · left
                rw [← h.2, hyn]
                exact List.mem_cons_of_mem _ hfirst2
    · rename_i hd
      simp only [Option.some.injEq, Prod.mk.injEq] at h
      rw [← h.2] at he
      simp at he
      rw [he] at hx
      rcases endpoint_cases hx with hxp | hxc
      · exact Or.inr hxp
      · rw [hxc] at hdx
        exact absurd hdx hd

/-- Disjointness lemma: a walk whose first edge is not in an
incident-closed consumed set `V` never touches `V` at all. -/
lemma chainWalk_disjoint {g : Adj} (hg : GWF g) {f : Nat} :
    ∀ {p c : Node} {ch : List Node} {cons V : List (Node × Node)},
      c ∈ nbrsOf g p →
      sortPair p c ∉ V →
      (∀ x, degree g x = 2 → (∃ e ∈ V, x = e.1 ∨ x = e.2) →
        ∀ y ∈ nbrsOf g x, sortPair x y ∈ V) →
      chainWalk g f p c = some (ch, cons) →
      ∀ e ∈ cons, e ∉ V := by
  induction f with
  | zero => intro p c ch cons V _ _ _ h; cases h
  | succ f ih =>
    intro p c ch cons V hc hnV hclosed h e he
    have hpc : p ∈ nbrsOf g c := hg.symm c p hc
    rw [chainWalk] at h
    split at h
    · rename_i hd
      split at h
      · simp only [Option.some.injEq, Prod.mk.injEq] at h
        rw [← h.2] at he
        simp at he
        rw [he]
        exact hnV
      · rename_i next tail heq
        split at h
        · cases h
        · rename_i ch2 cons2 hrec
          simp only [Option.some.injEq, Prod.mk.injEq] at h
          have hnext := next_mem_nbrs heq
          have hcn : sortPair c next ∉ V := by
            intro hmem
            have := hclosed c hd ⟨sortPair c next, hmem, fst_endpoint c next⟩ p hpc
            rw [sortPair_comm] at this
            exact hnV this
          rw [← h.2] at he
          rcases List.mem_cons.mp he with he | he
          · rw [he]
            exact hnV
          · exact ih hnext.1 hcn hclosed hrec e he
    · simp only [Option.some.injEq, Prod.mk.injEq] at h
      rw [← h.2] at he
      simp at he
      rw [he]
      exact hnV

/-! ### Termination of the walk: the supplied fuel never runs out -/

lemma chainWalk_none_step {g : Adj} {f : Nat} {p c : Node}
    (h : chainWalk g (f+1) p c = none) :
    ∃ s', stepState g (p, c) = some s' ∧ chainWalk g f s'.1 s'.2 = none := by
  rw [chainWalk] at h
  split at h
  · rename_i hd
    split at h
    · cases h
    · rename_i next tail heq
      split at h
      · rename_i hrec
        refine ⟨(c, next), ?_, hrec⟩
        simp only [stepState]
        rw [if_pos hd, heq]
      · cases h
  · cases h

lemma chainWalk_none_stateAt {g : Adj} {f : Nat} {p c : Node}
    (h : chainWalk g f p c = none) :
    ∀ i ≤ f, ∃ s, stateAt g (p, c) i = some s ∧
      chainWalk g (f - i) s.1 s.2 = none := by
  intro i hi
  induction i with
  | zero => exact ⟨(p, c), rfl, by simpa using h⟩
  | succ i ih =>
    obtain ⟨s, hs, hw⟩ := ih (Nat.le_of_succ_le hi)
    have hfi : f - i = (f - (i+1)) + 1 := by omega
    rw [hfi] at hw
    obtain ⟨s', hstep, hw'⟩ := chainWalk_none_step hw
    refine ⟨s', ?_, hw'⟩
    simp only [stateAt, hs, Option.some_bind]
    exact hstep

lemma stepState_valid {g : Adj} (hg : GWF g) {s s' : Node × Node}
    (_hv : ValidS g s) (h : stepState g s = some s') :
    ValidS g s' ∧ degree g s'.1 = 2 ∧ s'.1 = s.2 := by
  rw [stepState] at h
  split at h
  · rename_i hd
    split at h
    · cases h
    · rename_i n tail heq
      simp only [Option.some.injEq] at h
      have hn := next_mem_nbrs heq
      rw [← h]
      exact ⟨⟨hn.1, hg.symm n s.2 hn.1⟩, hd, rfl⟩
  · cases h

lemma stateAt_valid {g : Adj} (hg : GWF g) {s0 : Node × Node}
    (hv : ValidS g s0) :
    ∀ i s, stateAt g s0 i = some s → ValidS g s ∧ (1 ≤ i → degree g s.1 = 2) := by
  intro i
  induction i with
  | zero =>
    intro s h
    simp only [stateAt, Option.some.injEq] at h
    rw [← h]
    exact ⟨hv, by omega⟩
  | succ i ih =>
    intro s h
    simp only [stateAt] at h
    obtain ⟨t, ht, hstep⟩ := Option.bind_eq_some.mp h
    obtain ⟨hvt, _⟩ := ih t ht
    obtain ⟨hvs, hds, _⟩ := stepState_valid hg hvt hstep
    exact ⟨hvs, fun _ => hds⟩

lemma stepState_some_elim {g : Adj} {s u : Node × Node}
    (h : stepState g s = some u) :
    degree g s.2 = 2 ∧ u.1 = s.2 ∧
      ∃ tl, (nbrsOf g s.2).filter (fun n => n ≠ s.1) = u.2 :: tl := by
  rw [stepState] at h
  split at h
  · rename_i hd
    split at h
    · cases h
    · rename_i n tl heq
      simp only [Option.some.injEq] at h
      refine ⟨hd, ?_, tl, ?_⟩
      · rw [← h]
      · rw [← h]
        exact heq
  · cases h

lemma stepState_inj {g : Adj} (hg : GWF g) {s t u : Node × Node}
    (hvs : ValidS g s) (hvt : ValidS g t)
    (hs : stepState g s = some u) (ht : stepState g t = some u) : s = t := by
  obtain ⟨hds, hu1s, tls, heqs⟩ := stepState_some_elim hs
  obtain ⟨hdt, hu1t, tlt, heqt⟩ := stepState_some_elim ht
  have h22 : s.2 = t.2 := by rw [← hu1s, ← hu1t]
  have hnexts := next_mem_nbrs heqs
  have hnextt := next_mem_nbrs heqt
  have hs1mem : s.1 ∈ nbrsOf g t.2 := by
    rw [← h22]
    exact hvs.2
  have ht1mem : t.1 ∈ nbrsOf g t.2 := hvt.2
  have humem : u.2 ∈ nbrsOf g t.2 := by
    rw [← h22]
    exact hnexts.1
  have hus1 : u.2 ≠ s.1 := hnexts.2
  have hut1 : u.2 ≠ t.1 := hnextt.2
  rcases nbrs_of_degree_two hg hdt with ⟨a, b, hab, hne, _, _⟩ | hself
  · rw [hab] at hs1mem ht1mem humem
    simp at hs1mem ht1mem humem
    have h11 : s.1 = t.1 := by
      rcases hs1mem with h1 | h1 <;> rcases ht1mem with h2 | h2
      · rw [h1, h2]
      · exfalso
        rcases humem with h3 | h3
        · exact hus1 (h3.trans h1.symm)
        · exact hut1 (h3.trans h2.symm)
      · exfalso
        rcases humem with h3 | h3
        · exact hut1 (h3.trans h2.symm)
        · exact hus1 (h3.trans h1.symm)
      · rw [h1, h2]
    exact Prod.ext h11 h22
  · rw [hself] at hs1mem
    simp at hs1mem
    rw [h22, hself, hs1mem] at heqs
    simp at heqs

lemma stateAt_nodup {g : Adj} (hg : GWF g) {p c : Node}
    (hv : ValidS g (p, c)) (hdp : degree g p ≠ 2) :
    ∀ i j s, i < j → stateAt g (p, c) i = some s →
      stateAt g (p, c) j = some s → False := by
  intro i
  induction i using Nat.strong_induction_on with
  | _ i ih =>
    intro j s hij hi hj
    cases i with
    | zero =>
      simp only [stateAt, Option.some.injEq] at hi
      cases j with
      | zero => omega
      | succ j =>
        simp only [stateAt] at hj
        obtain ⟨t, ht, hstep⟩ := Option.bind_eq_some.mp hj
        obtain ⟨hvt, _⟩ := stateAt_valid hg hv j t ht
        obtain ⟨_, hds, _⟩ := stepState_valid hg hvt hstep
        rw [← hi] at hds
        exact hdp hds
    | succ i =>
      cases j with
      | zero => omega
      | succ j =>
        simp only [stateAt] at hi hj
        obtain ⟨ti, hti, hstepi⟩ := Option.bind_eq_some.mp hi
        obtain ⟨tj, htj, hstepj⟩ := Option.bind_eq_some.mp hj
        obtain ⟨hvti, _⟩ := stateAt_valid hg hv i ti hti
        obtain ⟨hvtj, _⟩ := stateAt_valid hg hv j tj htj
        have heq : ti = tj := stepState_inj hg hvti hvtj hstepi hstepj
        rw [heq] at hti
        exact ih i (by omega) j tj (by omega) hti htj

lemma chainWalk_isSome {g : Adj} (hg : GWF g) {p c : Node}
    (hc : c ∈ nbrsOf g p) (hdp : degree g p ≠ 2) :
    (chainWalk g (fuelOf g) p c).isSome := by
  by_contra hno
  have hnone : chainWalk g (fuelOf g) p c = none := by
    rcases hopt : chainWalk g (fuelOf g) p c with _ | v
    · rfl
    · rw [hopt] at hno
      simp at hno
  have hv : ValidS g (p, c) := ⟨hc, hg.symm c p hc⟩
  have hstates := chainWalk_none_stateAt hnone
  set n := (keysOf g).length with hn
  have hcardle : (Finset.range (n * n + 1)).card ≤
      ((keysOf g).toFinset ×ˢ (keysOf g).toFinset).card := by
    apply Finset.card_le_card_of_injOn
      (fun i => (stateAt g (p, c) i).getD (0, 0))
    · intro i hi
      simp only [Finset.mem_range] at hi
      obtain ⟨s, hs, _⟩ := hstates i (by simp only [fuelOf, ← hn]; omega)
      obtain ⟨hvs, _⟩ := stateAt_valid hg hv i s hs
      rw [hs]
      simp only [Option.getD_some]
      have h1 : s.1 ∈ keysOf g :=
        mem_keysOf_of_nbrs_ne_nil (List.ne_nil_of_mem hvs.1)
      have h2 : s.2 ∈ keysOf g :=
        mem_keysOf_of_nbrs_ne_nil (List.ne_nil_of_mem hvs.2)
      simp [Finset.mem_product, List.mem_toFinset, h1, h2]
    · intro i hi j hj hij
      simp only [Finset.coe_range, Set.mem_Iio] at hi hj
      obtain ⟨si, hsi, _⟩ := hstates i (by simp only [fuelOf, ← hn]; omega)
      obtain ⟨sj, hsj, _⟩ := hstates j (by simp only [fuelOf, ← hn]; omega)
      simp only [hsi, hsj, Option.getD_some] at hij
      rcases Nat.lt_trichotomy i j with hlt | heq | hgt
      · exfalso
        rw [← hij] at hsj
        exact stateAt_nodup hg hv hdp i j si hlt hsi hsj
      · exact heq
      · exfalso
        rw [hij] at hsi
        exact stateAt_nodup hg hv hdp j i sj hgt hsj hsi
  rw [Finset.card_range, Finset.card_product] at hcardle
  have hA : (keysOf g).toFinset.card ≤ n := List.toFinset_card_le _
  have : n * n + 1 ≤ n * n := le_trans hcardle (Nat.mul_le_mul hA hA)
  omega

/-! ### The outer double loop preserves the run invariant -/

lemma RunInv.emptyInv (g : Adj) : RunInv g [] [] where
  visIff := by simp
  disj := List.Pairwise.nil
  recsOk := by simp

lemma RunInv.closed {g : Adj} {visited : List (Node × Node)}
    {recs : List WalkRec} (hg : GWF g) (hinv : RunInv g visited recs) :
    ∀ x, degree g x = 2 → (∃ e ∈ visited, x = e.1 ∨ x = e.2) →
      ∀ y ∈ nbrsOf g x, sortPair x y ∈ visited := by
  intro x hdx ⟨e, hev, hxe⟩ y hy
  obtain ⟨r, hr, her⟩ := (hinv.visIff e).mp hev
  obtain ⟨_, hdj, hnj, hwalk⟩ := hinv.recsOk r hr
  rcases chainWalk_closure hg hnj hwalk e her x hxe hdx y hy with hin | hxj
  · exact (hinv.visIff _).mpr ⟨r, hr, hin⟩
  · rw [hxj] at hdx
    exact absurd hdx hdj

lemma walkStep_inv {g : Adj} {visited : List (Node × Node)}
    {recs : List WalkRec} {j n : Node} (hg : GWF g)
    (hinv : RunInv g visited recs) (hdj : degree g j ≠ 2)
    (hn : n ∈ nbrsOf g j) :
    ∃ v2 r2, walkStep g (fuelOf g) (some (visited, recs)) j n = some (v2, r2) ∧
      RunInv g v2 r2 := by
  rw [walkStep]
  by_cases hguard : degree g n = 2 ∧ sortPair j n ∉ visited
  · rw [if_pos hguard]
    have hsome := chainWalk_isSome hg hn hdj
    obtain ⟨⟨ch, cons⟩, hwalk⟩ := Option.isSome_iff_exists.mp hsome
    rw [hwalk]
    refine ⟨visited ++ cons, recs ++ [⟨j, n, ch, cons⟩], rfl, ?_, ?_, ?_⟩
    · intro e
      rw [List.mem_append]
      constructor
      · rintro (he | he)
        · obtain ⟨r, hr, her⟩ := (hinv.visIff e).mp he
          exact ⟨r, List.mem_append_left _ hr, her⟩
        · exact ⟨⟨j, n, ch, cons⟩, List.mem_append_right _ (by simp), he⟩
      · rintro ⟨r, hr, her⟩
        rcases List.mem_append.mp hr with hr | hr
        · exact Or.inl ((hinv.visIff e).mpr ⟨r, hr, her⟩)
        · simp at hr
          rw [hr] at her
          exact Or.inr her
    · rw [List.pairwise_append]
      have hdisjV : ∀ e ∈ cons, e ∉ visited :=
        chainWalk_disjoint hg hn hguard.2 (hinv.closed hg) hwalk
      refine ⟨hinv.disj, by simp, ?_⟩
      intro r1 hr1 r2 hr2 e he1
      simp at hr2
      rw [hr2]
      simp only []
      intro he2
      exact hdisjV e he2 ((hinv.visIff e).mpr ⟨r1, hr1, he1⟩)
    · intro r hr
      rcases List.mem_append.mp hr with hr | hr
      · exact hinv.recsOk r hr
      · simp at hr
        rw [hr]
        exact ⟨chainWalk_first_mem hwalk, hdj, hn, hwalk⟩
  · rw [if_neg hguard]
    exact ⟨visited, recs, rfl, hinv⟩

lemma foldNbrs_inv {g : Adj} {j : Node} (hg : GWF g)
    (hdj : degree g j ≠ 2) :
    ∀ (ns : List Node), (∀ n ∈ ns, n ∈ nbrsOf g j) →
      ∀ visited recs, RunInv g visited recs →
        ∃ v2 r2,
          ns.foldl (fun st2 n => walkStep g (fuelOf g) st2 j n)
            (some (visited, recs)) = some (v2, r2) ∧ RunInv g v2 r2 := by
  intro ns
  induction ns with
  | nil =>
    intro _ visited recs hinv
    exact ⟨visited, recs, rfl, hinv⟩
  | cons n rest ih =>
    intro hmem visited recs hinv
    obtain ⟨v1, r1, hstep, hinv1⟩ :=
      walkStep_inv hg hinv hdj (hmem n (by simp))
    rw [List.foldl_cons, hstep]
    exact ih (fun m hm => hmem m (by simp [hm])) v1 r1 hinv1

lemma foldJs_inv {g : Adj} (hg : GWF g) :
    ∀ (js : List Node), (∀ j ∈ js, degree g j ≠ 2) →
      ∀ visited recs, RunInv g visited recs →
        ∃ v2 r2,
          js.foldl
            (fun st j => (nbrsOf g j).foldl
              (fun st2 n => walkStep g (fuelOf g) st2 j n) st)
            (some (visited, recs)) = some (v2, r2) ∧ RunInv g v2 r2 := by
  intro js
  induction js with
  | nil =>
    intro _ visited recs hinv
    exact ⟨visited, recs, rfl, hinv⟩
  | cons j rest ih =>
    intro hmem visited recs hinv
    obtain ⟨v1, r1, hfold, hinv1⟩ :=
      foldNbrs_inv hg (hmem j (by simp)) (nbrsOf g j) (fun _ h => h)
        visited recs hinv
    rw [List.foldl_cons, hfold]
    exact ih (fun m hm => hmem m (by simp [hm])) v1 r1 hinv1

lemma walkRecords_inv {g : Adj} (hg : GWF g) :
    ∃ v recs, walkRecords g (junctionsOf g) = some (v, recs) ∧
      RunInv g v recs := by
  have hjs : ∀ j ∈ junctionsOf g, degree g j ≠ 2 := by
    intro j hj
    have := List.mem_filter.mp hj
    simpa using this.2
  exact foldJs_inv hg (junctionsOf g) hjs [] [] (RunInv.emptyInv g)

lemma recordsOf_inv {g : Adj} (hg : GWF g) :
    ∃ v, walkRecords g (junctionsOf g) = some (v, recordsOf g) ∧
      RunInv g v (recordsOf g) := by
  obtain ⟨v, recs, hw, hinv⟩ := walkRecords_inv hg
  refine ⟨v, ?_, ?_⟩
  · rw [hw, recordsOf, hw]
  · rw [recordsOf, hw]
    exact hinv

/-! ### Reachability lemmas -/

lemma Reachable.step {g : Adj} {u v : Node} (h : v ∈ nbrsOf g u) :
    Reachable g u v :=
  (Reachable.refl u).tail h

lemma Reachable.append {g : Adj} {u v w : Node}
    (h1 : Reachable g u v) (h2 : Reachable g v w) : Reachable g u w := by
  induction h2 with
  | refl => exact h1
  | tail _ hm ih => exact ih.tail hm

lemma Reachable.flip {g : Adj} (hg : GWF g) {u v : Node}
    (h : Reachable g u v) : Reachable g v u := by
  induction h with
  | refl => exact Reachable.refl _
  | tail _ hm ih =>
    exact (Reachable.step (hg.symm _ _ hm)).append ih

lemma chainWalk_reach {g : Adj} {o : Node} {f : Nat} :
    ∀ {p c : Node} {ch : List Node} {cons : List (Node × Node)},
      Reachable g o p → c ∈ nbrsOf g p →
      chainWalk g f p c = some (ch, cons) → ∀ x ∈ ch, Reachable g o x := by
  induction f with
  | zero => intro p c ch cons _ _ h; cases h
  | succ f ih =>
    intro p c ch cons hop hc h x hx
    have hoc : Reachable g o c := hop.tail hc
    rw [chainWalk] at h
    split at h
    · split at h
      · simp only [Option.some.injEq, Prod.mk.injEq] at h
        rw [← h.1] at hx
        simp at hx
        rw [hx]
        exact hoc
      · rename_i next tail heq
        split at h
        · cases h
        · rename_i ch2 cons2 hrec
          simp only [Option.some.injEq, Prod.mk.injEq] at h
          have hnext := next_mem_nbrs heq
          rw [← h.1] at hx
          rcases List.mem_cons.mp hx with hx | hx
          · rw [hx]
            exact hoc
          · exact ih hoc hnext.1 hrec x hx
    · simp only [Option.some.injEq, Prod.mk.injEq] at h
      rw [← h.1] at hx
      cases hx

/-! ### Sampling lemmas -/

lemma sampleChain_aux : ∀ (l : List Node) (k : Nat),
    ((l.enumFrom k).filter (fun p => p.1 % 4 = 0)).map Prod.snd =
      sampleAux k l := by
  intro l
  induction l with
  | nil => intro k; rfl
  | cons a t ih =>
    intro k
    by_cases hk : k % 4 = 0 <;>
      simp [List.enumFrom, List.filter_cons, hk, ih, sampleAux]

lemma sampleChain_eq (l : List Node) : sampleChain l = sampleAux 0 l := by
  rw [sampleChain]
  exact sampleChain_aux l 0

lemma sampleAux_length : ∀ (l : List Node) (k : Nat),
    (sampleAux k l).length = (l.length + 3 - (4 - k % 4) % 4) / 4 := by
  intro l
  induction l with
  | nil =>
    intro k
    simp [sampleAux]
    omega
  | cons a t ih =>
    intro k
    by_cases hk : k % 4 = 0 <;>
      simp [sampleAux, hk, ih (k+1)] <;> omega

lemma sampleAux_getD : ∀ (l : List Node) (k j : Nat),
    (sampleAux k l).getD j 0 = l.getD ((4 - k % 4) % 4 + 4 * j) 0 := by
  intro l
  induction l with
  | nil => intro k j; simp [sampleAux]
  | cons a t ih =>
    intro k j
    by_cases hk : k % 4 = 0
    · simp only [sampleAux, hk, if_true, List.singleton_append]
      cases j with
      | zero =>
        have harith : (4 - 0) % 4 + 4 * 0 = 0 := by omega
        rw [harith]
        simp
      | succ j =>
        rw [List.getD_cons_succ, ih (k+1) j]
        have h1 : (4 - (k+1) % 4) % 4 = 3 := by omega
        have harith : (4 - 0) % 4 + 4 * (j+1) = (3 + 4 * j) + 1 := by
          omega
        rw [h1, harith, List.getD_cons_succ]
    · simp only [sampleAux, hk, if_false, List.nil_append]
      rw [ih (k+1) j]
      have harith : (4 - k % 4) % 4 + 4 * j =
          ((4 - (k+1) % 4) % 4 + 4 * j) + 1 := by omega
      rw [harith, List.getD_cons_succ]

lemma sampleChain_subset {ch : List Node} {x : Node}
    (h : x ∈ sampleChain ch) : x ∈ ch := by
  have hs : (ch.enum.filter (fun p => p.1 % 4 = 0)).Sublist ch.enum :=
    List.filter_sublist _
  have hm := (hs.map Prod.snd).subset h
  rw [List.enum_map_snd] at hm
  exact hm

lemma gwf_buildGraph (edges : List (Node × Node)) : GWF (buildGraph edges) :=
  GWF.build edges

/-! ### Claim theorems -/

/-- C1: every edge of the graph is consumed by (recorded in the consumption
set of) at most one chain — the records' consumed-edge sets are pairwise
disjoint — and every discovered chain's record contains its boundary edge
between the originating Junction and its adjacent PathNode (and is
nonempty), so a chain between two Junctions is discovered exactly once:
the attempt from the second Junction endpoint finds its boundary edge
already in `visited_chains` and is rejected by the guard. -/
theorem claim_C1 (edges : List (Node × Node)) :
    (recordsOf (buildGraph edges)).Pairwise
      (fun r1 r2 => ∀ e, e ∈ r1.consumed → e ∉ r2.consumed) ∧
    ∀ r ∈ recordsOf (buildGraph edges),
      sortPair r.j r.n ∈ r.consumed ∧ r.consumed ≠ [] := by
  obtain ⟨v, _, hinv⟩ := recordsOf_inv (gwf_buildGraph edges)
  refine ⟨hinv.disj, ?_⟩
  intro r hr
  have h := hinv.recsOk r hr
  exact ⟨h.1, List.ne_nil_of_mem h.1⟩

theorem claim_C1_witness :
    sortPair 1 2 ∈ [((1:Node), (2:Node)), (2, 3), (3, 4)] ∧
      ([((1:Node), (2:Node)), (2, 3), (3, 4)] : List (Node × Node)) ≠ [] :=
  (claim_C1 [(1, 2), (2, 3), (3, 4)]).2
    ⟨1, 2, [2, 3], [(1, 2), (2, 3), (3, 4)]⟩ (by decide)

/-- C2: sampling a chain interior of length N retains exactly the entries
at zero-based positions 0, 4, 8, … (the j-th retained node is the node at
position 4*j), for a total of ⌈N/4⌉ = (N+3)/4 retained nodes; in
particular an interior of length 0 contributes nothing. -/
theorem claim_C2 (chain : List Node) :
    (sampleChain chain).length = (chain.length + 3) / 4 ∧
    ∀ j : Nat, (sampleChain chain).getD j 0 = chain.getD (4 * j) 0 := by
  constructor
  · rw [sampleChain_eq, sampleAux_length]
    norm_num
  · intro j
    rw [sampleChain_eq, sampleAux_getD]
    norm_num

/-- C3: the returned set is a superset of the Junction set — every node of
the built graph whose degree is not 2 is in the result. -/
theorem claim_C3 (edges : List (Node × Node)) (u : Node)
    (hu : u ∈ keysOf (buildGraph edges))
    (hd : degree (buildGraph edges) u ≠ 2) :
    u ∈ identify_necessary_manholes edges := by
  have hj : u ∈ junctionsOf (buildGraph edges) :=
    List.mem_filter.mpr ⟨hu, by simpa using hd⟩
  rw [identify_necessary_manholes, identifyG,
    if_neg (List.ne_nil_of_mem hu)]
  exact List.mem_append_left _ hj

theorem claim_C3_witness :
    (1:Node) ∈ identify_necessary_manholes [(1, 2)] :=
  claim_C3 [(1, 2)] 1 (by decide) (by decide)

/-- C4: `filteredEdges` is exactly the subset of the ORIGINAL edge list
whose both endpoints lie in the returned necessary set; in particular it
is a subset of the original edge list. -/
theorem claim_C4 (edges : List (Node × Node)) (e : Node × Node) :
    e ∈ filteredEdges edges ↔
      e ∈ edges ∧ e.1 ∈ identify_necessary_manholes edges ∧
        e.2 ∈ identify_necessary_manholes edges := by
  rw [filteredEdges, List.mem_filter]
  simp

/-- C5: on the linear path J1–A–B–C–D–E–J2 (nodes 1–7), the single
discovered chain has interior [A,B,C,D,E] = [2,3,4,5,6], the sampled
interior nodes are A and E (positions 0 and 4), the necessary set is
{J1, J2, A, E} = {1, 7, 2, 6}, and the filtered edges are exactly
(J1,A) and (E,J2). -/
theorem claim_C5 :
    recordsOf (buildGraph [(1,2),(2,3),(3,4),(4,5),(5,6),(6,7)]) =
      [⟨1, 2, [2,3,4,5,6], [(1,2),(2,3),(3,4),(4,5),(5,6),(6,7)]⟩] ∧
    sampleChain [2,3,4,5,6] = [2, 6] ∧
    identify_necessary_manholes [(1,2),(2,3),(3,4),(4,5),(5,6),(6,7)] =
      [1, 7, 2, 6] ∧
    filteredEdges [(1,2),(2,3),(3,4),(4,5),(5,6),(6,7)] = [(1,2),(6,7)] := by
  refine ⟨by decide, by decide, by decide, by decide⟩

/-- C6: a node of a connected component in which every node has degree
exactly 2 (a closed PathNode cycle with no Junction) never appears in the
output: no walk originates inside the component, so it is omitted. -/
theorem claim_C6 (edges : List (Node × Node)) (u : Node)
    (hu : u ∈ keysOf (buildGraph edges))
    (hall : ∀ v, Reachable (buildGraph edges) u v →
      degree (buildGraph edges) v = 2) :
    u ∉ identify_necessary_manholes edges := by
  intro hmem
  rw [identify_necessary_manholes, identifyG,
    if_neg (List.ne_nil_of_mem hu)] at hmem
  rcases List.mem_append.mp hmem with hj | ha
  · have hd := (List.mem_filter.mp hj).2
    simp at hd
    exact hd (hall u (Reachable.refl u))
  · rw [List.mem_flatMap] at ha
    obtain ⟨r, hr, hsr⟩ := ha
    obtain ⟨v, _, hinv⟩ := recordsOf_inv (gwf_buildGraph edges)
    obtain ⟨_, hdj, hnj, hwalk⟩ := hinv.recsOk r hr
    have hx : u ∈ r.chain := sampleChain_subset hsr
    have hreach : Reachable (buildGraph edges) r.j u :=
      chainWalk_reach (Reachable.refl r.j) hnj hwalk u hx
    have hback : Reachable (buildGraph edges) u r.j :=
      Reachable.flip (gwf_buildGraph edges) hreach
    exact hdj (hall r.j hback)

theorem claim_C6_witness :
    (1:Node) ∉ identify_necessary_manholes [(1,2),(2,3),(3,1)] := by
  apply claim_C6 [(1,2),(2,3),(3,1)] 1 (by decide)
  intro v hv
  have hmem : v ∈ [1, 2, 3] := by
    induction hv with
    | refl => simp
    | tail _ hm ih =>
      fin_cases ih
      · rw [show nbrsOf (buildGraph [(1,2),(2,3),(3,1)]) 1 = [2, 3]
          from rfl] at hm
        fin_cases hm <;> simp
      · rw [show nbrsOf (buildGraph [(1,2),(2,3),(3,1)]) 2 = [1, 3]
          from rfl] at hm
        fin_cases hm <;> simp
      · rw [show nbrsOf (buildGraph [(1,2),(2,3),(3,1)]) 3 = [2, 1]
          from rfl] at hm
        fin_cases hm <;> simp
  fin_cases hmem <;> decide

/-- C7: the simplification is total — for every finite edge list the
double loop over junctions and neighbors completes (the fuel supplied to
every walk is proved sufficient, so no call is cut short), covering the
empty graph, all-Junction graphs and isolated nodes alike — and empty
input yields the empty necessary set rather than an error. -/
theorem claim_C7 :
    (∀ edges : List (Node × Node),
      (walkRecords (buildGraph edges)
        (junctionsOf (buildGraph edges))).isSome) ∧
    identify_necessary_manholes [] = [] := by
  constructor
  · intro edges
    obtain ⟨v, recs, hw, _⟩ := walkRecords_inv (gwf_buildGraph edges)
    rw [hw]
    rfl
  · rfl

/-- C8 counterexample: the claim that malformed rows are rejected and the
build equals the build over only well-formed rows is false — a row with a
missing endpoint is consumed as-is, the null endpoint becoming a graph
node, so the two builds differ. -/
theorem claim_C8_counterexample :
    fromPandasRows [(some 1, none)] ≠
      fromPandasRows (wellFormedRows [(some 1, none)]) ∧
    (none : Option Nat) ∈ keysOf (fromPandasRows [(some 1, none)]) := by
  decide

/-- C8 amended: malformed rows are NOT rejected (and no warning is
issued): every row, well-formed or not, contributes both of its endpoint
values — a missing endpoint included — as nodes of the built graph. -/
theorem claim_C8_amended (rows : List (Option Nat × Option Nat))
    (r : Option Nat × Option Nat) (hr : r ∈ rows) :
    r.1 ∈ keysOf (fromPandasRows rows) ∧
    r.2 ∈ keysOf (fromPandasRows rows) :=
  mem_keysOf_buildGraphG hr

theorem claim_C8_amended_witness :
    (some 1 : Option Nat) ∈ keysOf (fromPandasRows [(some 1, none)]) ∧
    (none : Option Nat) ∈ keysOf (fromPandasRows [(some 1, none)]) :=
  claim_C8_amended [(some 1, none)] (some 1, none) (by decide)

/-- C9: an isolated node (degree 0) is classified as a Junction and is
always contained in the result of the simplification. -/
theorem claim_C9 (g : Adj) (u : Node) (hu : u ∈ keysOf g)
    (hd : degree g u = 0) :
    u ∈ junctionsOf g ∧ u ∈ identifyG g := by
  have hj : u ∈ junctionsOf g := List.mem_filter.mpr ⟨hu, by simp [hd]⟩
  refine ⟨hj, ?_⟩
  rw [identifyG, if_neg (List.ne_nil_of_mem hu)]
  exact List.mem_append_left _ hj

theorem claim_C9_witness :
    (5:Node) ∈ junctionsOf [((5:Node), ([] : List Node))] ∧
    (5:Node) ∈ identifyG [((5:Node), ([] : List Node))] :=
  claim_C9 [(5, [])] 5 (by decide) (by decide)

/-- C10: every returned node is a node of the built graph, and every node
added by the chain-sampling step has degree exactly 2 — so the result is
contained in the union of the Junction set and the PathNode set. -/
theorem claim_C10 (edges : List (Node × Node)) (u : Node) :
    (u ∈ identify_necessary_manholes edges →
      u ∈ keysOf (buildGraph edges)) ∧
    (u ∈ (recordsOf (buildGraph edges)).flatMap
        (fun r => sampleChain r.chain) →
      degree (buildGraph edges) u = 2) := by
  have hadd : u ∈ (recordsOf (buildGraph edges)).flatMap
      (fun r => sampleChain r.chain) → degree (buildGraph edges) u = 2 := by
    intro ha
    rw [List.mem_flatMap] at ha
    obtain ⟨r, hr, hsr⟩ := ha
    obtain ⟨v, _, hinv⟩ := recordsOf_inv (gwf_buildGraph edges)
    obtain ⟨_, _, _, hwalk⟩ := hinv.recsOk r hr
    exact chainWalk_chain_degree hwalk u (sampleChain_subset hsr)
  refine ⟨?_, hadd⟩
  intro hmem
  rw [identify_necessary_manholes, identifyG] at hmem
  by_cases hnil : keysOf (buildGraph edges) = []
  · rw [if_pos hnil] at hmem
    cases hmem
  · rw [if_neg hnil] at hmem
    rcases List.mem_append.mp hmem with hj | ha
    · exact (List.mem_filter.mp hj).1
    · exact mem_keysOf_of_degree_eq_two (hadd ha)

theorem claim_C10_witness :
    (2:Node) ∈ keysOf (buildGraph [(1, 2), (2, 3), (3, 4)]) ∧
    degree (buildGraph [(1, 2), (2, 3), (3, 4)]) 2 = 2 :=
  ⟨(claim_C10 [(1, 2), (2, 3), (3, 4)] 2).1 (by decide),
   (claim_C10 [(1, 2), (2, 3), (3, 4)] 2).2 (by decide)⟩

end Sewage